import Mathlib

/-!
Verification of the omniledger service state-storage layer
(`omniledger/service/struct.go`): the collection-backed store
(`newCollectionDB`, `loadAll`, `Store`, `GetValueKind`, `RootHash`,
`tryHash`) and the deterministic transaction-ordering protocol
(`sortTransactions`, `sortWithSalt`, `xorTransactions`).

Bytes are modelled as `Fin 256`; byte slices as `List Byte`.  The
external `collection` package (the Authenticated Collection) is not part
of the sources, so it is modelled from the specification; everything
else is translated directly from `struct.go`.
-/

deriving instance DecidableEq for Except

namespace Service

/-- A single byte, as in a Go `byte`. -/
abbrev Byte := Fin 256

/-- Bitwise XOR of two bytes (Go `^` on `byte`). -/
def bxor (a b : Byte) : Byte :=
  ⟨a.val ^^^ b.val, @Nat.xor_lt_two_pow a.val b.val 8 a.isLt b.isLt⟩

/-- Go `bytes.Compare`: lexicographic comparison of byte slices, where a
strict prefix compares less than the longer slice. -/
def compareBytes : List Byte → List Byte → Ordering
  | [], [] => .eq
  | [], _ :: _ => .lt
  | _ :: _, [] => .gt
  | a :: as, b :: bs =>
    if a.val < b.val then .lt
    else if b.val < a.val then .gt
    else compareBytes as bs

theorem compareBytes_eq_iff : ∀ {a b : List Byte}, compareBytes a b = .eq ↔ a = b
  | [], [] => by simp [compareBytes]
  | [], _ :: _ => by simp [compareBytes]
  | _ :: _, [] => by simp [compareBytes]
  | a :: as, b :: bs => by
    unfold compareBytes
    rcases Nat.lt_trichotomy a.val b.val with h | h | h
    · have hne : a ≠ b := fun hab => absurd (hab ▸ h) (lt_irrefl _)
      simp [h, hne]
    · have hab : a = b := Fin.ext h
      simp [h, Nat.lt_irrefl, hab, compareBytes_eq_iff]
    · have hne : a ≠ b := fun hab => absurd (hab ▸ h) (lt_irrefl _)
      simp [h, Nat.lt_asymm h, hne]

theorem compareBytes_gt_iff_lt : ∀ {a b : List Byte},
    compareBytes a b = .gt ↔ compareBytes b a = .lt
  | [], [] => by simp [compareBytes]
  | [], _ :: _ => by simp [compareBytes]
  | _ :: _, [] => by simp [compareBytes]
  | a :: as, b :: bs => by
    unfold compareBytes
    rcases Nat.lt_trichotomy a.val b.val with h | h | h
    · simp [h, Nat.lt_asymm h]
    · simp [h, Nat.lt_irrefl, compareBytes_gt_iff_lt]
    · simp [h, Nat.lt_asymm h]

theorem compareBytes_lt_trans : ∀ {a b c : List Byte},
    compareBytes a b = .lt → compareBytes b c = .lt → compareBytes a c = .lt
  | [], [], [], hab, _ => by simp [compareBytes] at hab
  | [], [], _ :: _, _, _ => by simp [compareBytes]
  | [], _ :: _, [], _, hbc => by simp [compareBytes] at hbc
  | [], _ :: _, _ :: _, _, _ => by simp [compareBytes]
  | _ :: _, [], _, hab, _ => by simp [compareBytes] at hab
  | _ :: _, _ :: _, [], _, hbc => by simp [compareBytes] at hbc
  | a :: as, b :: bs, c :: cs, hab, hbc => by
    unfold compareBytes at hab hbc ⊢
    rcases Nat.lt_trichotomy a.val b.val with h1 | h1 | h1
    · rcases Nat.lt_trichotomy b.val c.val with h2 | h2 | h2
      · simp [Nat.lt_trans h1 h2]
      · simp [h2 ▸ h1]
      · simp [Nat.lt_asymm h2, h2] at hbc
    · rcases Nat.lt_trichotomy b.val c.val with h2 | h2 | h2
      · simp [h1 ▸ h2]
      · simp [h1, Nat.lt_irrefl] at hab
        simp [h2, Nat.lt_irrefl] at hbc
        simp [h1, h2, Nat.lt_irrefl, compareBytes_lt_trans hab hbc]
      · simp [Nat.lt_asymm h2, h2] at hbc
    · simp [Nat.lt_asymm h1, h1] at hab

/-- The value of a byte slice read as an unsigned big-endian integer
(the ordering the specification prescribes for the salted-hash sort). -/
def bigEndianNat (l : List Byte) : Nat :=
  l.foldl (fun n b => n * 256 + b.val) 0

theorem bigEndianNat_foldl (i : Nat) :
    ∀ l : List Byte, l.foldl (fun n b => n * 256 + b.val) i
      = i * 256 ^ l.length + bigEndianNat l
  | [] => by simp [bigEndianNat]
  | b :: l => by
    simp only [List.foldl_cons, List.length_cons, bigEndianNat]
    rw [bigEndianNat_foldl (i * 256 + b.val) l, bigEndianNat_foldl (0 * 256 + b.val) l]
    ring

theorem bigEndianNat_lt : ∀ l : List Byte, bigEndianNat l < 256 ^ l.length
  | [] => by simp [bigEndianNat]
  | b :: l => by
    have hb : b.val + 1 ≤ 256 := b.isLt
    have ih := bigEndianNat_lt l
    simp only [bigEndianNat, List.foldl_cons, List.length_cons]
    rw [bigEndianNat_foldl (0 * 256 + b.val) l]
    calc (0 * 256 + b.val) * 256 ^ l.length + bigEndianNat l
        < (b.val + 1) * 256 ^ l.length := by
          have := Nat.add_lt_add_left ih (b.val * 256 ^ l.length)
          simpa [Nat.succ_mul] using this
      _ ≤ 256 * 256 ^ l.length := Nat.mul_le_mul_right _ hb
      _ = 256 ^ (l.length + 1) := by rw [Nat.pow_succ, Nat.mul_comm]

theorem bigEndianNat_cons (b : Byte) (l : List Byte) :
    bigEndianNat (b :: l) = b.val * 256 ^ l.length + bigEndianNat l := by
  simp only [bigEndianNat, List.foldl_cons]
  rw [bigEndianNat_foldl (0 * 256 + b.val) l]
  simp [bigEndianNat]

theorem nat_compare_add_left (k m n : Nat) : compare (k + m) (k + n) = compare m n := by
  rcases Nat.lt_trichotomy m n with h | h | h
  · rw [Nat.compare_eq_lt.mpr h, Nat.compare_eq_lt.mpr (Nat.add_lt_add_left h k)]
  · rw [h]
    exact (Nat.compare_eq_eq.mpr rfl).trans (Nat.compare_eq_eq.mpr rfl).symm
  · rw [Nat.compare_eq_gt.mpr h, Nat.compare_eq_gt.mpr (Nat.add_lt_add_left h k)]

/-- On equal-length byte slices, Go's `bytes.Compare` agrees with comparing
the unsigned big-endian integer values, which is the ordering the spec
prescribes for the salted-hash sort. -/
theorem compareBytes_eq_compare_bigEndianNat : ∀ {a b : List Byte},
    a.length = b.length →
    compareBytes a b = compare (bigEndianNat a) (bigEndianNat b)
  | [], [], _ => (Nat.compare_eq_eq.mpr rfl).symm
  | [], _ :: _, h => by simp at h
  | _ :: _, [], h => by simp at h
  | a :: as, b :: bs, h => by
    have hlen : as.length = bs.length := by simpa using h
    rw [bigEndianNat_cons, bigEndianNat_cons, hlen]
    unfold compareBytes
    rcases Nat.lt_trichotomy a.val b.val with h1 | h1 | h1
    · have hlt : a.val * 256 ^ bs.length + bigEndianNat as
          < b.val * 256 ^ bs.length + bigEndianNat bs := by
        calc a.val * 256 ^ bs.length + bigEndianNat as
            < a.val * 256 ^ bs.length + 256 ^ bs.length :=
              Nat.add_lt_add_left (hlen ▸ bigEndianNat_lt as) _
          _ = (a.val + 1) * 256 ^ bs.length := by ring
          _ ≤ b.val * 256 ^ bs.length := Nat.mul_le_mul_right _ h1
          _ ≤ b.val * 256 ^ bs.length + bigEndianNat bs := Nat.le_add_right _ _
      simp [h1, Nat.compare_eq_lt.mpr hlt]
    · have hab : a = b := Fin.ext h1
      subst hab
      rw [if_neg (Nat.lt_irrefl a.val), if_neg (Nat.lt_irrefl a.val),
        nat_compare_add_left (a.val * 256 ^ bs.length) (bigEndianNat as) (bigEndianNat bs)]
      exact compareBytes_eq_compare_bigEndianNat hlen
    · have hlt : b.val * 256 ^ bs.length + bigEndianNat bs
          < a.val * 256 ^ bs.length + bigEndianNat as := by
        calc b.val * 256 ^ bs.length + bigEndianNat bs
            < b.val * 256 ^ bs.length + 256 ^ bs.length :=
              Nat.add_lt_add_left (bigEndianNat_lt bs) _
          _ = (b.val + 1) * 256 ^ bs.length := by ring
          _ ≤ a.val * 256 ^ bs.length := Nat.mul_le_mul_right _ h1
          _ ≤ a.val * 256 ^ bs.length + bigEndianNat as := Nat.le_add_right _ _
      simp [h1, Nat.lt_asymm h1, Nat.compare_eq_gt.mpr hlt]

/-- Insert an element into a list in front of the first entry it
compares `le` to (the insertion step of a stable insertion sort). -/
def insertLe (le : α → α → Bool) (a : α) : List α → List α
  | [] => [a]
  | b :: l => if le a b then a :: b :: l else b :: insertLe le a l

/-- A stable insertion sort by a boolean comparison.  It is structurally
recursive, so concrete instances evaluate by `decide`. -/
def sortByLe (le : α → α → Bool) : List α → List α
  | [] => []
  | a :: l => insertLe le a (sortByLe le l)

theorem insertLe_perm (le : α → α → Bool) (a : α) :
    ∀ l : List α, List.Perm (insertLe le a l) (a :: l)
  | [] => List.Perm.refl _
  | b :: l => by
    unfold insertLe
    split
    · exact List.Perm.refl _
    · exact ((insertLe_perm le a l).cons b).trans (List.Perm.swap a b l)

theorem sortByLe_perm (le : α → α → Bool) : ∀ l : List α, List.Perm (sortByLe le l) l
  | [] => List.Perm.refl _
  | a :: l =>
    (insertLe_perm le a (sortByLe le l)).trans ((sortByLe_perm le l).cons a)

theorem mem_insertLe {le : α → α → Bool} {a x : α} :
    ∀ {l : List α}, x ∈ insertLe le a l → x = a ∨ x ∈ l := by
  intro l hx
  have := (insertLe_perm le a l).mem_iff.mp hx
  simpa using this

theorem pairwise_insertLe {le : α → α → Bool}
    (htrans : ∀ a b c, le a b → le b c → le a c)
    (htotal : ∀ a b, le a b || le b a) (a : α) :
    ∀ {l : List α}, l.Pairwise (le · ·) → (insertLe le a l).Pairwise (le · ·)
  | [], _ => by simp [insertLe]
  | b :: l, hp => by
    unfold insertLe
    rcases List.pairwise_cons.mp hp with ⟨hb, hl⟩
    by_cases hab : le a b
    · rw [if_pos hab]
      refine List.pairwise_cons.mpr ⟨?_, hp⟩
      intro y hy
      rcases List.mem_cons.mp hy with rfl | hy
      · exact hab
      · exact htrans a b y hab (hb y hy)
    · rw [if_neg hab]
      have hba : le b a := by
        have htot := htotal a b
        rw [Bool.not_eq_true] at hab
        rw [hab] at htot
        simpa using htot
      refine List.pairwise_cons.mpr ⟨?_, pairwise_insertLe htrans htotal a hl⟩
      intro y hy
      rcases mem_insertLe hy with rfl | hy
      · exact hba
      · exact hb y hy

theorem pairwise_sortByLe {le : α → α → Bool}
    (htrans : ∀ a b c, le a b → le b c → le a c)
    (htotal : ∀ a b, le a b || le b a) :
    ∀ l : List α, (sortByLe le l).Pairwise (le · ·)
  | [] => List.Pairwise.nil
  | a :: l => pairwise_insertLe htrans htotal a (pairwise_sortByLe htrans htotal l)

/-- Errors raised by the Authenticated Collection's primitives. -/
inductive CollErr
  | duplicateKey
  | keyNotFound
deriving DecidableEq

/-- Modelled from the spec: the Authenticated Collection (the external
`collection` package, not part of the sources).  It maps keys to a
`(value, kind)` pair of byte slices.  Per the spec its insertion
primitive requires strict absence (`DuplicateKeyError` on an existing
key) — the policy the spec's try-hash scenario pins down ("expect
DuplicateKeyError ... and, either way, store state unchanged") and the
one the store's code relies on — and removal fails on an absent key. -/
abbrev Collection := List (List Byte × List Byte × List Byte)

namespace Collection

/-- Look up the entry stored under a key, if any. -/
def lookup (c : Collection) (k : List Byte) : Option (List Byte × List Byte) :=
  (c.find? fun e => e.1 == k).map fun e => e.2

/-- Modelled from the spec: `add` inserts the entry for a fresh key and
fails with a duplicate-key error when the key is already present. -/
def Add (c : Collection) (k v kind : List Byte) : Except CollErr Collection :=
  if (c.find? fun e => e.1 == k).isSome then .error .duplicateKey
  else .ok ((k, v, kind) :: c)

/-- Modelled from the spec: `remove` deletes the entry for a key and
fails with a key-not-found error when the key is absent. -/
def Remove (c : Collection) (k : List Byte) : Except CollErr Collection :=
  if (c.find? fun e => e.1 == k).isSome then .ok (c.filter fun e => e.1 != k)
  else .error .keyNotFound

/-- An injective encoding of a byte slice into a natural number,
used only to give entries a canonical order. -/
def encBytes (l : List Byte) : Nat :=
  l.foldl (fun n b => n * 257 + (b.val + 1)) 0

/-- An injective encoding of a collection entry into a natural number. -/
def encEntry (e : List Byte × List Byte × List Byte) : Nat :=
  Nat.pair (encBytes e.1) (Nat.pair (encBytes e.2.1) (encBytes e.2.2))

/-- Modelled from the spec: the root digest is a pure function of the
collection's contents, independent of insertion order.  We model an
idealized collision-free digest by the canonical (sorted) multiset of
entry encodings. -/
def GetRoot (c : Collection) : List Nat :=
  sortByLe Nat.ble (c.map encEntry)

/-- The full key set of the collection (as the list of keys held). -/
def keyList (c : Collection) : List (List Byte) :=
  c.map fun e => e.1

end Collection

/-- Go `Action` from `struct.go`: how the collectionDB will be modified. -/
inductive Action
  | create
  | update
  | remove
deriving DecidableEq

/-- Go `Transaction` from `struct.go` (signatures are opaque to the
store and modelled as raw byte slices). -/
structure Transaction where
  Action : Action
  Key : List Byte
  Kind : List Byte
  Value : List Byte
  Valid : Bool
  Signatures : List (List Byte)
deriving DecidableEq

/-- The durable bolt bucket: byte keys mapped to byte values, with
cursor iteration in sorted key order. -/
abbrev Bucket := List (List Byte × List Byte)

/-- Bucket read (`bucket.Get`): `none` plays the role of Go's nil slice. -/
def bucketGet (b : Bucket) (k : List Byte) : Option (List Byte) :=
  (b.find? fun e => e.1 == k).map fun e => e.2

/-- Bucket write (`bucket.Put`): insert or overwrite the value under a key. -/
def bucketPut (b : Bucket) (k v : List Byte) : Bucket :=
  (k, v) :: b.filter fun e => e.1 != k

/-- The keys of a bucket in the order a bolt cursor yields them
(sorted byte order). -/
def bucketKeysSorted (b : Bucket) : List (List Byte) :=
  sortByLe (fun x y => compareBytes x y != Ordering.gt) (b.map fun e => e.1)

/-- Go `collectionDB` from `struct.go`: the in-memory Authenticated
Collection bound to its durable bucket. -/
structure CollectionDB where
  coll : Collection
  bucket : Bucket
deriving DecidableEq

/-- The byte suffix `"kind"` appended by `Store`. -/
def kindSuffix : List Byte := [107, 105, 110, 100]

/-- The byte suffix `"sig"` read by `loadAll`. -/
def sigSuffix : List Byte := [115, 105, 103]

/-- The bucket key `Store` writes the kind under.  Go builds it with
`make([]byte, len(t.Key)+4)` followed by `copy` and `append`, so four
zero bytes sit between the key and the literal `"kind"`. -/
def kindKey (k : List Byte) : List Byte :=
  k ++ [0, 0, 0, 0] ++ kindSuffix

/-- Go `loadAll` from `struct.go`: iterate every key in the bucket in
cursor order, read the companion `k ++ "sig"` entry (Go's nil slice when
absent is modelled as the empty slice), and add each into the
collection, discarding `Add`'s error as the code does. -/
def loadAll (b : Bucket) : Collection :=
  (bucketKeysSorted b).foldl
    (fun coll k =>
      match bucketGet b k with
      | none => coll
      | some v =>
        let sig := (bucketGet b (k ++ sigSuffix)).getD []
        match coll.Add k v sig with
        | .ok c2 => c2
        | .error _ => coll)
    ([] : Collection)

/-- Go `newCollectionDB` from `struct.go`: bind a bucket and rehydrate
the collection from it via `loadAll`. -/
def newCollectionDB (b : Bucket) : CollectionDB :=
  { coll := loadAll b, bucket := b }

/-- An opaque I/O error code of the durable bucket. -/
abbrev PErr := Nat

/-- Go `Store` from `struct.go`: add the transaction's key, value and
kind to the collection — the returned error is discarded, exactly as in
the code — then durably write the value under `t.Key` and the kind under
`kindKey t.Key` inside one bolt update.  The update's possible I/O
failure is injected through `fault`; on failure bolt rolls the
transaction back, so the bucket is unchanged while the in-memory
collection keeps its mutation, and `Store` returns exactly that error. -/
def CollectionDB.Store (c : CollectionDB) (t : Transaction) (fault : Option PErr) :
    CollectionDB × Option PErr :=
  let coll2 := match c.coll.Add t.Key t.Value t.Kind with
    | .ok c2 => c2
    | .error _ => c.coll
  match fault with
  | some e => ({ c with coll := coll2 }, some e)
  | none =>
    ({ coll := coll2,
       bucket := bucketPut (bucketPut c.bucket t.Key t.Value) (kindKey t.Key) t.Kind },
     none)

/-- Go `RootHash` from `struct.go`: delegates to the collection's root. -/
def CollectionDB.RootHash (c : CollectionDB) : List Nat :=
  c.coll.GetRoot

/-- A value extracted from a membership proof: Go hands them back as
`interface{}`, so each is either a byte slice or something else. -/
inductive Val
  | bytes (b : List Byte)
  | other
deriving DecidableEq

/-- Errors (and the one runtime panic) of the `GetValueKind` path. -/
inductive GetErr
  | noMatch
  | nothingStored
  | valueNotBytes
  | kindNotBytes
  | indexOutOfRange
deriving DecidableEq

/-- Modelled from the spec: the proof mechanism of the Authenticated
Collection (`coll.Get(key).Record()` then `proof.Values()` — external
`collection` package).  For a present key it yields the ordered stored
values `[value, kind]`; for an absent key it fails with a no-match
error. -/
def getValues (c : Collection) (key : List Byte) : Except GetErr (List Val) :=
  match c.lookup key with
  | some (v, kind) => .ok [.bytes v, .bytes kind]
  | none => .error .noMatch

/-- The value-extraction logic of Go `GetValueKind` from `struct.go`,
as a function of the values the proof yielded: an empty list is
rejected ("nothing stored under that key"); then `hashes[0]` is
type-asserted to a byte slice; then `hashes[1]` is indexed — which for a
one-element list is a runtime index-out-of-range panic, reaching the
type assertion only when a second element exists. -/
def getValueKindFromValues : List Val → Except GetErr (List Byte × List Byte)
  | [] => .error .nothingStored
  | .other :: _ => .error .valueNotBytes
  | [.bytes _] => .error .indexOutOfRange
  | .bytes _ :: .other :: _ => .error .kindNotBytes
  | .bytes v :: .bytes k :: _ => .ok (v, k)

/-- Go `GetValueKind` from `struct.go`: obtain the proof values for the
key and extract `(value, kind)` from them. -/
def GetValueKind (c : Collection) (key : List Byte) :
    Except GetErr (List Byte × List Byte) :=
  match getValues c key with
  | .error e => .error e
  | .ok hashes => getValueKindFromValues hashes

/-- The deferred cleanup of Go `tryHash`: the keys applied so far are
removed in LIFO order (most recently added first); a removal error
overwrites the returned error and discards the merkle root, and the
remaining deferred removals still run. -/
def runUndo (coll : Collection) (added : List (List Byte))
    (mr : Option (List Nat)) (rerr : Option CollErr) :
    (Option (List Nat) × Option CollErr) × Collection :=
  match added with
  | [] => ((mr, rerr), coll)
  | k :: rest =>
    match coll.Remove k with
    | .ok c2 => runUndo c2 rest mr rerr
    | .error e => runUndo coll rest none (some e)

/-- The loop of Go `tryHash`: add each transaction's key/value/kind,
registering a deferred removal after each successful add; on an add
error return it at once; on success capture the merkle root.  Either
way the deferred removals then run. -/
def tryHashAux (coll : Collection) (ts : List Transaction)
    (added : List (List Byte)) :
    (Option (List Nat) × Option CollErr) × Collection :=
  match ts with
  | [] => runUndo coll added (some coll.GetRoot) none
  | t :: rest =>
    match coll.Add t.Key t.Value t.Kind with
    | .ok c2 => tryHashAux c2 rest (t.Key :: added)
    | .error e => runUndo coll added none (some e)

/-- Go `tryHash` from `struct.go`: the merkle root of the collection as
if the transactions' key/value pairs had been added, with every applied
key removed again on every exit path. -/
def CollectionDB.tryHash (c : CollectionDB) (ts : List Transaction) :
    (Option (List Nat) × Option CollErr) × CollectionDB :=
  let r := tryHashAux c.coll ts []
  (r.1, { c with coll := r.2 })

/-- Go `xorTransactions` from `struct.go`: XOR the 32-byte hash of every
serialized transaction into a zero-initialized 32-byte result.  The hash
function (`sha256.Sum256`) is abstracted as `H`. -/
def xorTransactions (H : List Byte → List Byte) (ts : List (List Byte)) : List Byte :=
  ts.foldl (fun result t => List.zipWith bxor result (H t)) (List.replicate 32 (0 : Byte))

/-- The comparison Go's `sort.Slice` sorts by in `sortWithSalt`:
`less i j` is `bytes.Compare(hash(salt ++ ts i), hash(salt ++ ts j)) == -1`;
a list is sorted when no later element is `less` than an earlier one. -/
def leSalted (H : List Byte → List Byte) (salt x y : List Byte) : Bool :=
  !(compareBytes (H (salt ++ y)) (H (salt ++ x)) == Ordering.lt)

/-- Go `sortWithSalt` from `struct.go`: sort the byte representations by
the hash of the salt prepended to each.  Go's `sort.Slice` is an
unspecified (unstable) comparison sort; it is modelled by a
deterministic sort with the same comparator, which agrees with it on
every property that does not depend on the order of ties. -/
def sortWithSalt (H : List Byte → List Byte) (ts : List (List Byte))
    (salt : List Byte) : List (List Byte) :=
  sortByLe (leSalted H salt) ts

/-- Errors of Go `sortTransactions`: a `network.Marshal` failure, or a
`network.Unmarshal` failure (which also covers the "Data of wrong type"
branch). -/
inductive SortErr
  | marshalErr
  | unmarshalErr
deriving DecidableEq

/-- The first loop of Go `sortTransactions`: marshal every transaction,
aborting on the first failure.  `network.Marshal` is abstracted as `M`. -/
def marshalAll (M : Transaction → Option (List Byte)) :
    List Transaction → Except SortErr (List (List Byte))
  | [] => .ok []
  | t :: ts =>
    match M t with
    | none => .error .marshalErr
    | some b =>
      match marshalAll M ts with
      | .ok bs => .ok (b :: bs)
      | .error e => .error e

/-- The second loop of Go `sortTransactions`: unmarshal every sorted
byte representation, aborting on the first failure.  `network.Unmarshal`
plus the `*Transaction` type assertion is abstracted as `U`. -/
def unmarshalAll (U : List Byte → Option Transaction) :
    List (List Byte) → Except SortErr (List Transaction)
  | [] => .ok []
  | b :: bs =>
    match U b with
    | none => .error .unmarshalErr
    | some t =>
      match unmarshalAll U bs with
      | .ok ts => .ok (t :: ts)
      | .error e => .error e

/-- Go `sortTransactions` from `struct.go`: marshal the batch, derive
the salt by XOR-ing the transaction hashes, sort by salted hash,
unmarshal back.  The input slice is only overwritten in the final loop,
after every unmarshal succeeded, so the returned slice contents are the
input's own on every error path. -/
def sortTransactions (M : Transaction → Option (List Byte))
    (U : List Byte → Option Transaction) (H : List Byte → List Byte)
    (ts : List Transaction) : List Transaction × Option SortErr :=
  match marshalAll M ts with
  | .error e => (ts, some e)
  | .ok bs =>
    let salt := xorTransactions H bs
    let sorted := sortWithSalt H bs salt
    match unmarshalAll U sorted with
    | .error e => (ts, some e)
    | .ok sortedTs => (sortedTs, none)

/-- Defined from the spec's words, for the refinement claim: the salt is
the bitwise XOR of the cryptographic hash of every serialized
transaction (a fixed-size, 256-bit digest). -/
def saltSpec (H : List Byte → List Byte) (ts : List (List Byte)) : List Byte :=
  (ts.map H).foldr (fun h acc => List.zipWith bxor h acc) (List.replicate 32 (0 : Byte))

theorem find?_filter_of_imp (p q : α → Bool) (h : ∀ e, p e = true → q e = true) :
    ∀ l : List α, (l.filter q).find? p = l.find? p
  | [] => rfl
  | a :: l => by
    by_cases hq : q a
    · rw [List.filter_cons_of_pos hq]
      by_cases hp : p a
      · rw [List.find?_cons_of_pos _ hp, List.find?_cons_of_pos _ hp]
      · rw [List.find?_cons_of_neg _ (by simpa using hp),
          List.find?_cons_of_neg _ (by simpa using hp)]
        exact find?_filter_of_imp p q h l
    · rw [List.filter_cons_of_neg (by simpa using hq)]
      have hp : ¬ p a := fun hpa => hq (h a hpa)
      rw [List.find?_cons_of_neg _ (by simpa using hp)]
      exact find?_filter_of_imp p q h l

theorem filter_ne_of_find?_none (c : Collection) (k : List Byte)
    (h : (c.find? fun e => e.1 == k) = none) :
    (c.filter fun e => e.1 != k) = c := by
  apply List.filter_eq_self.mpr
  intro e he
  have hne := List.find?_eq_none.mp h e he
  simpa using hne

/-- Adding a fresh key and then removing it restores the collection exactly. -/
theorem Collection.Add_then_Remove (c c2 : Collection) (k v kind : List Byte)
    (h : c.Add k v kind = .ok c2) : c2.Remove k = .ok c := by
  unfold Collection.Add at h
  by_cases hf : ((c.find? fun e => e.1 == k).isSome : Bool)
  · rw [if_pos hf] at h
    cases h
  · rw [if_neg hf] at h
    cases h
    have hnone : (c.find? fun e => e.1 == k) = none :=
      Option.not_isSome_iff_eq_none.mp (by simpa using hf)
    unfold Collection.Remove
    rw [List.find?_cons_of_pos _ (by simp)]
    simp only [Option.isSome_some, if_true]
    rw [List.filter_cons_of_neg (by simp)]
    rw [filter_ne_of_find?_none c k hnone]

/-- Removing, in order, a chain of keys from a collection, provided every
removal succeeds. -/
def undoChain (coll : Collection) : List (List Byte) → Option Collection
  | [] => some coll
  | k :: rest =>
    match coll.Remove k with
    | .ok c2 => undoChain c2 rest
    | .error _ => none

theorem runUndo_collection (mr : Option (List Nat)) (rerr : Option CollErr) :
    ∀ (added : List (List Byte)) (coll c0 : Collection),
      undoChain coll added = some c0 → (runUndo coll added mr rerr).2 = c0
  | [], coll, c0, h => by
    simp [undoChain] at h
    simp [runUndo, h]
  | k :: rest, coll, c0, h => by
    unfold undoChain at h
    unfold runUndo
    cases hrem : coll.Remove k with
    | ok c2 =>
      rw [hrem] at h
      exact runUndo_collection mr rerr rest c2 c0 h
    | error e =>
      rw [hrem] at h
      cases h

theorem tryHashAux_collection :
    ∀ (ts : List Transaction) (coll c0 : Collection) (added : List (List Byte)),
      undoChain coll added = some c0 → (tryHashAux coll ts added).2 = c0
  | [], coll, c0, added, h => by
    unfold tryHashAux
    exact runUndo_collection _ _ added coll c0 h
  | t :: rest, coll, c0, added, h => by
    unfold tryHashAux
    cases hadd : coll.Add t.Key t.Value t.Kind with
    | ok c2 =>
      apply tryHashAux_collection rest c2 c0 (t.Key :: added)
      unfold undoChain
      rw [Collection.Add_then_Remove coll c2 t.Key t.Value t.Kind hadd]
      exact h
    | error e =>
      exact runUndo_collection _ _ added coll c0 h

/-- The collection after `tryHash` is the collection before it,
on every path. -/
theorem tryHash_collection_eq (c : CollectionDB) (ts : List Transaction) :
    (c.tryHash ts).2 = c := by
  unfold CollectionDB.tryHash
  have h := tryHashAux_collection ts c.coll c.coll [] rfl
  simp [h]

/-- C1: for every batch of transactions and every starting collection
state, after `tryHash` returns — successfully or with an error — the
Authenticated Collection's root hash and its full key set are identical
to their values immediately before the call: every key added during the
speculative probe is removed on every exit path. -/
theorem tryHash_preserves_root_and_keys (c : CollectionDB) (ts : List Transaction) :
    (c.tryHash ts).2.RootHash = c.RootHash ∧
    (c.tryHash ts).2.coll.keyList = c.coll.keyList := by
  rw [tryHash_collection_eq c ts]
  exact ⟨rfl, rfl⟩

theorem bucketGet_put_self (b : Bucket) (k v : List Byte) :
    bucketGet (bucketPut b k v) k = some v := by
  unfold bucketGet bucketPut
  rw [List.find?_cons_of_pos _ (by simp)]
  rfl

theorem kindKey_ne (k : List Byte) : kindKey k ≠ k := by
  intro h
  have hlen := congrArg List.length h
  simp [kindKey, kindSuffix] at hlen

theorem bucketGet_put_ne (b : Bucket) (k q v : List Byte) (h : k ≠ q) :
    bucketGet (bucketPut b k v) q = bucketGet b q := by
  unfold bucketGet bucketPut
  rw [List.find?_cons_of_neg _ (by simpa using h)]
  rw [find?_filter_of_imp _ _ ?_]
  intro e he
  simp only [beq_iff_eq] at he
  simp only [bne_iff_ne, ne_eq, he]
  exact fun hqk => h hqk.symm

/-- C9: if the durable bucket write inside `Store` fails, `Store`
returns that error to the caller and the in-memory Authenticated
Collection is not rolled back: after the failed call the collection
still contains the entry added for the transaction (the bucket itself is
unchanged, since bolt rolls the failed update transaction back). -/
theorem store_fault_keeps_memory (c : CollectionDB) (t : Transaction) (e : PErr)
    (hfresh : c.coll.lookup t.Key = none) :
    (c.Store t (some e)).2 = some e ∧
    (c.Store t (some e)).1.coll.lookup t.Key = some (t.Value, t.Kind) ∧
    (c.Store t (some e)).1.bucket = c.bucket := by
  have hfind : (List.find? (fun x => x.1 == t.Key) c.coll) = none := by
    unfold Collection.lookup at hfresh
    cases hf2 : List.find? (fun x => x.1 == t.Key) c.coll with
    | none => rfl
    | some x => rw [hf2] at hfresh; simp at hfresh
  refine ⟨rfl, ?_, rfl⟩
  simp only [CollectionDB.Store, Collection.Add, hfind, Option.isSome_none,
    Bool.false_eq_true, if_false, Collection.lookup]
  rw [List.find?_cons_of_pos _ (by simp)]
  rfl

/-- C9 witness: the theorem at a concrete store and transaction. -/
theorem store_fault_keeps_memory_witness :
    ((⟨[], []⟩ : CollectionDB).Store ⟨.update, [120], [97], [49], false, []⟩ (some 5)).2 = some 5 ∧
    ((⟨[], []⟩ : CollectionDB).Store ⟨.update, [120], [97], [49], false, []⟩
        (some 5)).1.coll.lookup [120] = some ([49], [97]) ∧
    ((⟨[], []⟩ : CollectionDB).Store ⟨.update, [120], [97], [49], false, []⟩
        (some 5)).1.bucket = ([] : Bucket) :=
  store_fault_keeps_memory ⟨[], []⟩ ⟨.update, [120], [97], [49], false, []⟩ 5 (by decide)

/-- C10: `Store` discards the error of the in-memory `Add`: its return
value is exactly the outcome of the durable bucket write, and when the
key is already present in the collection the bucket ends up holding the
transaction's value under the key while the collection keeps the old
entry, never the new one. -/
theorem store_discards_add_error (c : CollectionDB) (t : Transaction)
    (f : Option PErr) (v0 k0 : List Byte)
    (hdup : c.coll.lookup t.Key = some (v0, k0)) (hne : v0 ≠ t.Value) :
    (c.Store t f).2 = f ∧
    bucketGet (c.Store t none).1.bucket t.Key = some t.Value ∧
    (c.Store t none).1.coll.lookup t.Key = some (v0, k0) ∧
    (c.Store t none).1.coll.lookup t.Key ≠ some (t.Value, t.Kind) := by
  have hfind : ((List.find? (fun x => x.1 == t.Key) c.coll).isSome : Bool) := by
    unfold Collection.lookup at hdup
    cases hf2 : List.find? (fun x => x.1 == t.Key) c.coll with
    | none => rw [hf2] at hdup; simp at hdup
    | some x => rfl
  have hcoll : (c.Store t none).1.coll = c.coll := by
    simp [CollectionDB.Store, Collection.Add, hfind]
  refine ⟨?_, ?_, ?_, ?_⟩
  · cases f <;> rfl
  · have hbucket : (c.Store t none).1.bucket
        = bucketPut (bucketPut c.bucket t.Key t.Value) (kindKey t.Key) t.Kind := by
      simp [CollectionDB.Store, Collection.Add, hfind]
    rw [hbucket, bucketGet_put_ne _ _ _ _ (kindKey_ne t.Key), bucketGet_put_self]
  · rw [hcoll]; exact hdup
  · rw [hcoll, hdup]
    intro hcontra
    exact hne (by injection hcontra with hpair; exact congrArg Prod.fst hpair)

/-- C10 witness: the theorem at a concrete store whose collection
already holds a different value for the key. -/
theorem store_discards_add_error_witness :
    ((⟨[([120], [49], [97])], [([120], [49])]⟩ : CollectionDB).Store
        ⟨.update, [120], [97], [50], false, []⟩ none).2 = none ∧
    bucketGet ((⟨[([120], [49], [97])], [([120], [49])]⟩ : CollectionDB).Store
        ⟨.update, [120], [97], [50], false, []⟩ none).1.bucket [120] = some [50] ∧
    ((⟨[([120], [49], [97])], [([120], [49])]⟩ : CollectionDB).Store
        ⟨.update, [120], [97], [50], false, []⟩ none).1.coll.lookup [120] = some ([49], [97]) ∧
    ((⟨[([120], [49], [97])], [([120], [49])]⟩ : CollectionDB).Store
        ⟨.update, [120], [97], [50], false, []⟩ none).1.coll.lookup [120] ≠ some ([50], [97]) :=
  store_discards_add_error ⟨[([120], [49], [97])], [([120], [49])]⟩
    ⟨.update, [120], [97], [50], false, []⟩ none [49] [97] (by decide) (by decide)

/-- C4 (refuted): the effective storage key of `Store` is the bare
`t.Key`, not `Kind ':' Key`: after storing kind `"a"` and kind `"b"`
under the same user key `"x"`, the collection holds one single entry,
under `[120]` (`"x"`), with the first transaction's value — the second
add collided and its error was discarded — and nothing is stored under
`"a" ':' "x"`; the bucket meanwhile was overwritten with the second
value under the bare key. -/
theorem store_effective_key_is_bare_key :
    ((((⟨[], []⟩ : CollectionDB).Store ⟨.update, [120], [97], [49], false, []⟩ none).1.Store
        ⟨.update, [120], [98], [50], false, []⟩ none).1.coll.lookup [120]
      = some ([49], [97])) ∧
    ((((⟨[], []⟩ : CollectionDB).Store ⟨.update, [120], [97], [49], false, []⟩ none).1.Store
        ⟨.update, [120], [98], [50], false, []⟩ none).1.coll.keyList = [[120]]) ∧
    ((((⟨[], []⟩ : CollectionDB).Store ⟨.update, [120], [97], [49], false, []⟩ none).1.Store
        ⟨.update, [120], [98], [50], false, []⟩ none).1.coll.lookup [97, 58, 120] = none) ∧
    (bucketGet (((⟨[], []⟩ : CollectionDB).Store ⟨.update, [120], [97], [49], false, []⟩
        none).1.Store ⟨.update, [120], [98], [50], false, []⟩ none).1.bucket [120]
      = some [50]) := by
  decide

/-- C3 (refuted): storing `{kind="a", key="x", value="1"}` and then
`{kind="a", key="x", value="2"}` (both Update) leaves the collection
holding value `"1"` — the second `Add` fails on the duplicate key and
`Store` discards the error — so `GetValueKind` returns `("1", "a")`, not
`("2", "a")`, and the root hash after the second store equals the root
hash after the first. -/
theorem update_does_not_change_value_or_root :
    (GetValueKind ((((⟨[], []⟩ : CollectionDB).Store ⟨.update, [120], [97], [49], false, []⟩
        none).1.Store ⟨.update, [120], [97], [50], false, []⟩ none).1.coll) [120]
      = .ok ([49], [97])) ∧
    ((((⟨[], []⟩ : CollectionDB).Store ⟨.update, [120], [97], [49], false, []⟩ none).1.Store
        ⟨.update, [120], [97], [50], false, []⟩ none).1.RootHash
      = (((⟨[], []⟩ : CollectionDB).Store ⟨.update, [120], [97], [49], false, []⟩
        none).1.RootHash)) := by
  decide

/-- C2 (refuted): after a single `Store` of `{Key=[1], Kind=[3],
Value=[2]}`, rehydrating a fresh `collectionDB` from the same bucket
yields a different root hash: `loadAll` looks the kind up under
`key ++ "sig"`, which `Store` never writes (it writes `kindKey key`),
and also re-adds the kind-suffixed bucket key as a primary key. -/
theorem rehydration_root_mismatch :
    ((newCollectionDB (((⟨[], []⟩ : CollectionDB).Store ⟨.update, [1], [3], [2], false, []⟩
        none).1.bucket)).RootHash
      ≠ (((⟨[], []⟩ : CollectionDB).Store ⟨.update, [1], [3], [2], false, []⟩
        none).1.RootHash)) ∧
    ((newCollectionDB (((⟨[], []⟩ : CollectionDB).Store ⟨.update, [1], [3], [2], false, []⟩
        none).1.bucket)).coll.lookup [1] = some ([2], [])) ∧
    ((newCollectionDB (((⟨[], []⟩ : CollectionDB).Store ⟨.update, [1], [3], [2], false, []⟩
        none).1.bucket)).coll.lookup (kindKey [1]) = some ([3], [])) := by
  decide

/-- The malformed-entry errors of the `GetValueKind` path: the stored
shape does not match the expected arity or the expected types. -/
def GetErr.isMalformed : GetErr → Bool
  | .nothingStored => true
  | .valueNotBytes => true
  | .kindNotBytes => true
  | _ => false

/-- C6 counterexample: when the proof yields exactly one stored value,
and that value is a byte sequence, the extraction does not return a
malformed-entry error — it is a runtime index-out-of-range panic
(`hashes[1]` on a one-element slice). -/
theorem getValueKind_one_value_panics :
    getValueKindFromValues [Val.bytes []] = .error .indexOutOfRange ∧
    GetErr.isMalformed .indexOutOfRange = false := by
  decide

/-- C6 amended: `GetValueKind` fails with a not-found error when the key
is absent; the extraction returns a malformed-entry error when the proof
yields zero values, when the first value is not a byte sequence, or when
a second value exists and is not a byte sequence; but when the proof
yields exactly one value that is a byte sequence, the lookup is a
runtime index-out-of-range panic rather than a returned error. -/
theorem getValueKind_error_cases (c : Collection) (k v : List Byte)
    (rest : List Val) (habsent : c.lookup k = none) :
    GetValueKind c k = .error .noMatch ∧
    getValueKindFromValues [] = .error .nothingStored ∧
    getValueKindFromValues (Val.other :: rest) = .error .valueNotBytes ∧
    getValueKindFromValues [Val.bytes v] = .error .indexOutOfRange ∧
    getValueKindFromValues (Val.bytes v :: Val.other :: rest) = .error .kindNotBytes := by
  refine ⟨?_, rfl, rfl, rfl, rfl⟩
  unfold GetValueKind getValues
  rw [habsent]

/-- C6 witness: the amended theorem at a concrete collection and inputs. -/
theorem getValueKind_error_cases_witness :
    (([] : Collection).lookup [0] = none) ∧
    (GetValueKind ([] : Collection) [0] = .error .noMatch ∧
      getValueKindFromValues [] = .error .nothingStored ∧
      getValueKindFromValues (Val.other :: []) = .error .valueNotBytes ∧
      getValueKindFromValues [Val.bytes [7]] = .error .indexOutOfRange ∧
      getValueKindFromValues (Val.bytes [7] :: Val.other :: []) = .error .kindNotBytes) :=
  ⟨by decide, getValueKind_error_cases [] [0] [7] [] (by decide)⟩

theorem bxor_comm (a b : Byte) : bxor a b = bxor b a :=
  Fin.ext (Nat.xor_comm _ _)

theorem bxor_assoc (a b c : Byte) : bxor (bxor a b) c = bxor a (bxor b c) :=
  Fin.ext (Nat.xor_assoc _ _ _)

theorem zipWith_bxor_comm : ∀ a b : List Byte,
    List.zipWith bxor a b = List.zipWith bxor b a
  | [], [] => rfl
  | [], _ :: _ => rfl
  | _ :: _, [] => rfl
  | a :: as, b :: bs => by
    simp only [List.zipWith_cons_cons]
    rw [bxor_comm, zipWith_bxor_comm as bs]

theorem zipWith_bxor_right_comm : ∀ z a b : List Byte,
    List.zipWith bxor (List.zipWith bxor z a) b
      = List.zipWith bxor (List.zipWith bxor z b) a
  | [], _, _ => by simp
  | _ :: _, [], [] => rfl
  | _ :: _, [], _ :: _ => rfl
  | _ :: _, _ :: _, [] => rfl
  | z :: zs, a :: as, b :: bs => by
    simp only [List.zipWith_cons_cons]
    rw [zipWith_bxor_right_comm zs as bs]
    rw [bxor_assoc, bxor_assoc, bxor_comm a b]

theorem zipWith_bxor_left_comm : ∀ a b c : List Byte,
    List.zipWith bxor a (List.zipWith bxor b c)
      = List.zipWith bxor b (List.zipWith bxor a c)
  | [], [], _ => rfl
  | [], _ :: _, [] => rfl
  | [], _ :: _, _ :: _ => rfl
  | _ :: _, [], _ => rfl
  | _ :: _, _ :: _, [] => rfl
  | a :: as, b :: bs, c :: cs => by
    simp only [List.zipWith_cons_cons]
    rw [zipWith_bxor_left_comm as bs cs]
    rw [← bxor_assoc, ← bxor_assoc, bxor_comm a b]

/-- The salt does not depend on the order of the batch: XOR is
commutative and associative. -/
theorem xorTransactions_perm (H : List Byte → List Byte)
    {bs bs2 : List (List Byte)} (hp : List.Perm bs bs2) :
    xorTransactions H bs = xorTransactions H bs2 := by
  unfold xorTransactions
  exact hp.foldl_eq'
    (fun x _ y _ z => zipWith_bxor_right_comm z (H x) (H y)) _

theorem foldr_zipWith_pull : ∀ (l : List (List Byte)) (z a : List Byte),
    l.foldr (fun h acc => List.zipWith bxor h acc) (List.zipWith bxor z a)
      = List.zipWith bxor a (l.foldr (fun h acc => List.zipWith bxor h acc) z)
  | [], z, a => zipWith_bxor_comm z a
  | b :: l, z, a => by
    simp only [List.foldr_cons]
    rw [foldr_zipWith_pull l z a]
    exact zipWith_bxor_left_comm b a _

theorem foldl_zipWith_eq_foldr : ∀ (l : List (List Byte)) (z : List Byte),
    l.foldl (fun r h => List.zipWith bxor r h) z
      = l.foldr (fun h acc => List.zipWith bxor h acc) z
  | [], _ => rfl
  | a :: l, z => by
    simp only [List.foldl_cons, List.foldr_cons]
    rw [foldl_zipWith_eq_foldr l (List.zipWith bxor z a)]
    exact foldr_zipWith_pull l z a

/-- The code's salt computation agrees with the spec's: XOR of the hash
of every serialized transaction. -/
theorem xorTransactions_eq_saltSpec (H : List Byte → List Byte)
    (bs : List (List Byte)) : xorTransactions H bs = saltSpec H bs := by
  unfold xorTransactions saltSpec
  rw [← List.foldl_map H (fun r h => List.zipWith bxor r h) bs
    (List.replicate 32 (0 : Byte))]
  exact foldl_zipWith_eq_foldr (bs.map H) _

theorem ordering_beq_false_of_ne {o p : Ordering} (h : o ≠ p) : (o == p) = false := by
  cases o <;> cases p <;> first | exact absurd rfl h | rfl

theorem leSalted_not_lt {H : List Byte → List Byte} {salt x y : List Byte}
    (h : leSalted H salt x y = true) :
    compareBytes (H (salt ++ y)) (H (salt ++ x)) ≠ Ordering.lt := by
  intro hc
  unfold leSalted at h
  rw [hc] at h
  exact Bool.noConfusion h

theorem leSalted_of_not_lt {H : List Byte → List Byte} {salt x y : List Byte}
    (h : compareBytes (H (salt ++ y)) (H (salt ++ x)) ≠ Ordering.lt) :
    leSalted H salt x y = true := by
  unfold leSalted
  rw [ordering_beq_false_of_ne h]
  rfl

theorem leSalted_total (H : List Byte → List Byte) (salt : List Byte) :
    ∀ x y, leSalted H salt x y || leSalted H salt y x := by
  intro x y
  by_cases h1 : compareBytes (H (salt ++ y)) (H (salt ++ x)) = Ordering.lt
  · have h2 : compareBytes (H (salt ++ x)) (H (salt ++ y)) ≠ Ordering.lt := by
      intro hc
      have hgt := compareBytes_gt_iff_lt.mpr h1
      rw [hc] at hgt
      cases hgt
    rw [leSalted_of_not_lt h2]
    simp
  · rw [leSalted_of_not_lt h1]
    simp

theorem leSalted_trans (H : List Byte → List Byte) (salt : List Byte) :
    ∀ x y z, leSalted H salt x y → leSalted H salt y z → leSalted H salt x z := by
  intro x y z hxy hyz
  have hxy2 := leSalted_not_lt hxy
  have hyz2 := leSalted_not_lt hyz
  apply leSalted_of_not_lt
  intro hzx
  cases htri : compareBytes (H (salt ++ z)) (H (salt ++ y)) with
  | lt => exact hyz2 htri
  | eq =>
    have heq := compareBytes_eq_iff.mp htri
    rw [heq] at hzx
    exact hxy2 hzx
  | gt =>
    have hyltz := compareBytes_gt_iff_lt.mp htri
    exact hxy2 (compareBytes_lt_trans hyltz hzx)

/-- When two elements compare equivalent under the salted order, their
salted hashes are equal byte slices. -/
theorem leSalted_antisymm_hash {H : List Byte → List Byte} {salt x y : List Byte}
    (hxy : leSalted H salt x y = true) (hyx : leSalted H salt y x = true) :
    H (salt ++ x) = H (salt ++ y) := by
  have hxy2 := leSalted_not_lt hxy
  have hyx2 := leSalted_not_lt hyx
  cases htri : compareBytes (H (salt ++ x)) (H (salt ++ y)) with
  | lt => exact absurd htri hyx2
  | eq => exact compareBytes_eq_iff.mp htri
  | gt => exact absurd (compareBytes_gt_iff_lt.mp htri) hxy2

/-- C7: `sortTransactions` implements the specified algorithm: the salt
the code computes (`xorTransactions`) equals the spec's bitwise XOR of
the hash of each serialized transaction and is identical for any
permutation of the batch, and `sortWithSalt` produces a permutation of
the serialized transactions that is sorted ascending by
`hash(salt ++ transaction_bytes)` compared as an unsigned big-endian
byte string. -/
theorem sortWithSalt_follows_spec (H : List Byte → List Byte)
    (bs bs2 : List (List Byte))
    (Hlen : ∀ b, (H b).length = 32) (hperm : List.Perm bs bs2) :
    xorTransactions H bs = saltSpec H bs ∧
    xorTransactions H bs = xorTransactions H bs2 ∧
    List.Perm (sortWithSalt H bs (saltSpec H bs)) bs ∧
    (sortWithSalt H bs (saltSpec H bs)).Pairwise
      (fun x y => bigEndianNat (H (saltSpec H bs ++ x))
        ≤ bigEndianNat (H (saltSpec H bs ++ y))) := by
  refine ⟨xorTransactions_eq_saltSpec H bs, xorTransactions_perm H hperm,
    sortByLe_perm _ bs, ?_⟩
  have hpw := pairwise_sortByLe (leSalted_trans H (saltSpec H bs))
    (leSalted_total H (saltSpec H bs)) bs
  refine List.Pairwise.imp ?_ hpw
  intro x y hxy
  have hnotlt := leSalted_not_lt hxy
  rw [compareBytes_eq_compare_bigEndianNat (by rw [Hlen, Hlen])] at hnotlt
  exact Nat.le_of_not_lt fun hlt => hnotlt (Nat.compare_eq_lt.mpr hlt)

/-- A 32-byte stand-in hash used only to instantiate the abstract hash
in witnesses: the reversed input padded with zeroes and truncated. -/
def tailHash (b : List Byte) : List Byte :=
  (b.reverse ++ List.replicate 32 (0 : Byte)).take 32

theorem tailHash_length (b : List Byte) : (tailHash b).length = 32 := by
  simp [tailHash]

/-- C7 witness: the theorem at a two-element batch and its swap, with
the abstract hash instantiated by `tailHash`. -/
theorem sortWithSalt_follows_spec_witness :
    (∀ b, (tailHash b).length = 32) ∧
    List.Perm ([[2], [1]] : List (List Byte)) [[1], [2]] ∧
    (xorTransactions tailHash [[2], [1]] = saltSpec tailHash [[2], [1]] ∧
      xorTransactions tailHash [[2], [1]] = xorTransactions tailHash [[1], [2]] ∧
      List.Perm (sortWithSalt tailHash [[2], [1]] (saltSpec tailHash [[2], [1]]))
        [[2], [1]] ∧
      (sortWithSalt tailHash [[2], [1]] (saltSpec tailHash [[2], [1]])).Pairwise
        (fun x y => bigEndianNat (tailHash (saltSpec tailHash [[2], [1]] ++ x))
          ≤ bigEndianNat (tailHash (saltSpec tailHash [[2], [1]] ++ y)))) :=
  ⟨tailHash_length, by decide,
    sortWithSalt_follows_spec tailHash [[2], [1]] [[1], [2]] tailHash_length (by decide)⟩

/-- C8: if marshalling or unmarshalling of any element fails during
`sortTransactions`, the operation returns an error and the resulting
transaction slice is exactly the input slice — the input is only
overwritten after every unmarshal succeeded, so no failure path
reorders it. -/
theorem sortTransactions_error_leaves_input (M : Transaction → Option (List Byte))
    (U : List Byte → Option Transaction) (H : List Byte → List Byte)
    (ts : List Transaction) (e : SortErr)
    (herr : (sortTransactions M U H ts).2 = some e) :
    (sortTransactions M U H ts).1 = ts := by
  unfold sortTransactions at herr ⊢
  cases hm : marshalAll M ts with
  | error e2 => simp [hm]
  | ok bs =>
    simp only [hm] at herr ⊢
    cases hu : unmarshalAll U (sortWithSalt H bs (xorTransactions H bs)) with
    | error e2 => simp [hu]
    | ok out => simp [hu] at herr

/-- C8 witness: a marshaller that fails leaves the one-element input
slice untouched. -/
theorem sortTransactions_error_leaves_input_witness :
    ((sortTransactions (fun _ => none) (fun _ => none) tailHash
        [⟨.update, [120], [97], [49], false, []⟩]).2 = some SortErr.marshalErr) ∧
    (sortTransactions (fun _ => none) (fun _ => none) tailHash
        [⟨.update, [120], [97], [49], false, []⟩]).1
      = [⟨.update, [120], [97], [49], false, []⟩] :=
  ⟨by decide,
    sortTransactions_error_leaves_input (fun _ => none) (fun _ => none) tailHash
      [⟨.update, [120], [97], [49], false, []⟩] SortErr.marshalErr (by decide)⟩

/-- Two lists that are permutations of each other, both sorted by a
relation that is antisymmetric on the elements involved, are equal. -/
theorem pairwise_perm_eq {r : α → α → Prop} :
    ∀ {l1 l2 : List α}, List.Perm l1 l2 → l1.Pairwise r → l2.Pairwise r →
      (∀ a ∈ l1, ∀ b ∈ l1, r a b → r b a → a = b) → l1 = l2
  | [], l2, hp, _, _, _ => (hp.symm.eq_nil).symm ▸ rfl
  | a :: t1, l2, hp, hp1, hp2, hanti => by
    cases l2 with
    | nil => exact absurd hp.eq_nil (by simp)
    | cons b t2 =>
      have hab : a = b := by
        rcases List.mem_cons.mp (hp.mem_iff.mp (List.mem_cons_self a t1)) with h | h
        · exact h
        · have hba : r b a := (List.pairwise_cons.mp hp2).1 a h
          rcases List.mem_cons.mp (hp.symm.mem_iff.mp (List.mem_cons_self b t2)) with h2 | h2
          · exact h2.symm
          · have hab2 : r a b := (List.pairwise_cons.mp hp1).1 b h2
            exact hanti a (List.mem_cons_self a t1) b (List.mem_cons.mpr (Or.inr h2))
              hab2 hba
      subst hab
      have htails := pairwise_perm_eq hp.cons_inv (List.pairwise_cons.mp hp1).2
        (List.pairwise_cons.mp hp2).2
        (fun x hx y hy hxy hyx =>
          hanti x (List.mem_cons.mpr (Or.inr hx)) y (List.mem_cons.mpr (Or.inr hy)) hxy hyx)
      rw [htails]

theorem marshalAll_cons_ok {M : Transaction → Option (List Byte)}
    {t : Transaction} {ts : List Transaction} {bs : List (List Byte)}
    (h : marshalAll M (t :: ts) = .ok bs) :
    ∃ b bs2, M t = some b ∧ marshalAll M ts = .ok bs2 ∧ bs = b :: bs2 := by
  unfold marshalAll at h
  cases hM : M t with
  | none => rw [hM] at h; cases h
  | some b =>
    rw [hM] at h
    cases hrest : marshalAll M ts with
    | ok bs2 =>
      rw [hrest] at h
      cases h
      exact ⟨b, bs2, rfl, rfl, rfl⟩
    | error e => rw [hrest] at h; cases h

/-- Marshalling succeeds on a permuted batch with a permuted result. -/
theorem marshalAll_perm (M : Transaction → Option (List Byte))
    {ts ts2 : List Transaction} (hp : List.Perm ts ts2) :
    ∀ {bs : List (List Byte)}, marshalAll M ts = .ok bs →
      ∃ bs2, marshalAll M ts2 = .ok bs2 ∧ List.Perm bs bs2 := by
  induction hp with
  | nil =>
    intro bs h
    exact ⟨bs, h, List.Perm.refl _⟩
  | cons x hp2 ih =>
    intro bs h
    rcases marshalAll_cons_ok h with ⟨b, bs1, hMx, hrest, rfl⟩
    rcases ih hrest with ⟨bs2, hm2, hperm2⟩
    refine ⟨b :: bs2, ?_, hperm2.cons b⟩
    unfold marshalAll
    rw [hMx, hm2]
  | swap x y l =>
    intro bs h
    rcases marshalAll_cons_ok h with ⟨by2, bs1, hMy, hrest, rfl⟩
    rcases marshalAll_cons_ok hrest with ⟨bx, bs0, hMx, hrest2, rfl⟩
    refine ⟨bx :: by2 :: bs0, ?_, List.Perm.swap bx by2 bs0⟩
    unfold marshalAll
    rw [hMx]
    unfold marshalAll
    rw [hMy, hrest2]
  | trans hp1 hp2 ih1 ih2 =>
    intro bs h
    rcases ih1 h with ⟨bs1, hm1, hperm1⟩
    rcases ih2 hm1 with ⟨bs2, hm2, hperm2⟩
    exact ⟨bs2, hm2, hperm1.trans hperm2⟩

theorem sortTransactions_eq_of_marshal {M : Transaction → Option (List Byte)}
    {U : List Byte → Option Transaction} {H : List Byte → List Byte}
    {ts : List Transaction} {bs : List (List Byte)}
    (hm : marshalAll M ts = .ok bs) :
    sortTransactions M U H ts
      = match unmarshalAll U (sortWithSalt H bs (xorTransactions H bs)) with
        | .error e => (ts, some e)
        | .ok s => (s, none) := by
  unfold sortTransactions
  rw [hm]

/-- C5: `sortTransactions` is deterministic — it is a pure function of
the batch — and permutation-invariant: when it succeeds on a batch,
it succeeds on every permutation of that batch with the identical
resulting sequence of transactions, provided the salted hashes of the
serialized transactions are collision-free on the batch. -/
theorem sortTransactions_perm_invariant (M : Transaction → Option (List Byte))
    (U : List Byte → Option Transaction) (H : List Byte → List Byte)
    (B B2 out : List Transaction) (bs : List (List Byte))
    (hm : marshalAll M B = .ok bs)
    (hinj : ∀ a ∈ bs, ∀ b ∈ bs,
      H (xorTransactions H bs ++ a) = H (xorTransactions H bs ++ b) → a = b)
    (hok : sortTransactions M U H B = (out, none))
    (hperm : List.Perm B B2) :
    sortTransactions M U H B2 = (out, none) := by
  rcases marshalAll_perm M hperm hm with ⟨bs2, hm2, hbsperm⟩
  have hsalt : xorTransactions H bs2 = xorTransactions H bs :=
    (xorTransactions_perm H hbsperm).symm
  have hsorted_eq : sortWithSalt H bs (xorTransactions H bs)
      = sortWithSalt H bs2 (xorTransactions H bs) := by
    apply pairwise_perm_eq
    · exact (sortByLe_perm _ bs).trans (hbsperm.trans (sortByLe_perm _ bs2).symm)
    · exact pairwise_sortByLe (leSalted_trans H _) (leSalted_total H _) bs
    · exact pairwise_sortByLe (leSalted_trans H _) (leSalted_total H _) bs2
    · intro a ha b hb hab hba
      have ha2 : a ∈ bs := (sortByLe_perm _ bs).mem_iff.mp ha
      have hb2 : b ∈ bs := (sortByLe_perm _ bs).mem_iff.mp hb
      exact hinj a ha2 b hb2 (leSalted_antisymm_hash hab hba)
  rw [sortTransactions_eq_of_marshal hm] at hok
  rw [sortTransactions_eq_of_marshal hm2, hsalt, ← hsorted_eq]
  cases hu : unmarshalAll U (sortWithSalt H bs (xorTransactions H bs)) with
  | error e =>
    rw [hu] at hok
    cases hok
  | ok s =>
    rw [hu] at hok
    cases hok
    rfl

/-- A marshaller and an unmarshaller used only to instantiate the
abstract codec in witnesses. -/
def keyMarshal (t : Transaction) : Option (List Byte) := some t.Key

/-- The unmarshaller companion of `keyMarshal`. -/
def keyUnmarshal (b : List Byte) : Option Transaction :=
  some ⟨.update, b, [], [], false, []⟩

/-- C5 witness: the theorem at a concrete two-element batch and its
reversal, with the abstract hash instantiated by `tailHash`. -/
theorem sortTransactions_perm_invariant_witness :
    (marshalAll keyMarshal [⟨.update, [2], [], [], false, []⟩,
        ⟨.update, [1], [], [], false, []⟩] = .ok [[2], [1]]) ∧
    (∀ a ∈ ([[2], [1]] : List (List Byte)), ∀ b ∈ ([[2], [1]] : List (List Byte)),
      tailHash (xorTransactions tailHash [[2], [1]] ++ a)
          = tailHash (xorTransactions tailHash [[2], [1]] ++ b) → a = b) ∧
    (sortTransactions keyMarshal keyUnmarshal tailHash
        [⟨.update, [2], [], [], false, []⟩, ⟨.update, [1], [], [], false, []⟩]
      = ([⟨.update, [1], [], [], false, []⟩, ⟨.update, [2], [], [], false, []⟩], none)) ∧
    (List.Perm [⟨.update, [2], [], [], false, []⟩, ⟨.update, [1], [], [], false, []⟩]
      [(⟨.update, [1], [], [], false, []⟩ : Transaction),
        ⟨.update, [2], [], [], false, []⟩]) ∧
    (sortTransactions keyMarshal keyUnmarshal tailHash
        [⟨.update, [1], [], [], false, []⟩, ⟨.update, [2], [], [], false, []⟩]
      = ([⟨.update, [1], [], [], false, []⟩, ⟨.update, [2], [], [], false, []⟩], none)) :=
  ⟨by decide, by decide, by decide, by decide,
    sortTransactions_perm_invariant keyMarshal keyUnmarshal tailHash
      [⟨.update, [2], [], [], false, []⟩, ⟨.update, [1], [], [], false, []⟩]
      [⟨.update, [1], [], [], false, []⟩, ⟨.update, [2], [], [], false, []⟩]
      [⟨.update, [1], [], [], false, []⟩, ⟨.update, [2], [], [], false, []⟩]
      [[2], [1]] (by decide) (by decide) (by decide) (by decide)⟩

end Service
